import Mathlib

/-!
# Verification of the summarus Pointer-Generator Network core

A shallow embedding, in Lean 4, of the pointer-generator-specific logic of
`summarus/pgn.py` and of the evaluation pairing logic of `evaluate.py`,
together with theorems settling the specification claims about them.

Conventions of the embedding:
* tensors become `List`s (per example) or `List (List _)`s (per batch);
* machine integers become `Nat` (all quantities involved are non-negative,
  and every subtraction in the source is of the form `a - a * m` with
  `m ∈ {0, 1}`, which never goes below zero);
* floating point numbers become `ℚ`;
* external framework modules (embedder, encoder, attention, LSTM cell,
  linear layers, vocabulary lookup, text post-processing) are not part of
  the repository and are abstracted as function parameters; everything that
  is computed in `pgn.py` / `evaluate.py` itself is embedded explicitly.
-/

namespace Summarus

/-- `List.foldr max 0`: the maximum of a list of naturals (`torch.max` over a
    row; `0` for the empty row, harmless because all entries are `≥ 0`). -/
def maxList (l : List Nat) : Nat := l.foldr max 0

/-- A duplicate-free list with the same members as `l` (used only to count
    distinct values, so the order in which duplicates are removed is
    irrelevant). -/
def listDedup : List Nat → List Nat
  | [] => []
  | x :: xs => if x ∈ xs then listDedup xs else x :: listDedup xs

/-- The number of distinct values of `l` that are strictly below `v`.
    For `v ∈ l` this is exactly the index of `v` in the sorted list of
    unique values of `l`, i.e. the inverse index returned by
    `torch.unique(l, return_inverse=True, sorted=True)` (pgn.py line 119). -/
def distinctLT (l : List Nat) (v : Nat) : Nat :=
  ((listDedup l).filter (fun x => decide (x < v))).length

/-- `unk_only = token_ids * is_unk` (pgn.py lines 114-115): the token-identity
    id at positions holding the unknown token, `0` elsewhere. -/
def maskedIds (unk : Nat) (toks ids : List Nat) : List Nat :=
  (toks.zip ids).map (fun p => p.2 * (if p.1 = unk then 1 else 0))

/-- `tokens - tokens * is_unk + (target_vocab_size - 1) * is_unk + unk_token_nums`
    (pgn.py line 122), with `unk_token_nums` the per-position inverse indices
    of `unk_only` into its sorted unique values (lines 117-120). -/
def rewriteTokens (V unk : Nat) (toks ids : List Nat) : List Nat :=
  let masked := maskedIds unk toks ids
  (toks.zip masked).map (fun p =>
    let m := if p.1 = unk then 1 else 0
    p.1 - p.1 * m + (V - 1) * m + distinctLT masked p.2)

/-- `tokens - tokens * unk_target_tokens_mask + target_unk_index * unk_target_tokens_mask`
    (pgn.py lines 130-132): every entry strictly above `maxSrc` is replaced
    by the unknown-token index, the rest is kept. -/
def collapseRow (maxSrc unk : Nat) (l : List Nat) : List Nat :=
  l.map (fun t =>
    let m := if maxSrc < t then 1 else 0
    t - t * m + unk * m)

/-- The target token list carried by the optional training-time pair. -/
def tgtToksOf : Option (List Nat × List Nat) → List Nat
  | none => []
  | some p => p.1

/-- The target token-identity list carried by the optional training-time
    pair. -/
def tgtIdsOf : Option (List Nat × List Nat) → List Nat
  | none => []
  | some p => p.2

/-- One example's slice of `PointerGeneratorNetwork._prepare`
    (pgn.py lines 100-138).  Arguments: the target vocabulary size `V`, the
    target unknown-token index `unk`, the source token ids and source
    token-identity ids, and optionally the target token ids together with the
    target token-identity ids.  Result: the modified source tokens, the
    modified target tokens (when targets were given), and this example's
    contribution to `source_unk_count` (the maximum of `unk_token_nums` over
    the source span, line 136). -/
def prepareRow (V unk : Nat) (srcToks srcIds : List Nat)
    (tgt : Option (List Nat × List Nat)) :
    List Nat × Option (List Nat) × Nat :=
  let srcLen := srcToks.length
  let toks := srcToks ++ tgtToksOf tgt
  let ids := srcIds ++ tgtIdsOf tgt
  let masked := maskedIds unk toks ids
  let ranks := masked.map (distinctLT masked)
  let toks2 := rewriteTokens V unk toks ids
  let unkCnt := maxList (ranks.take srcLen)
  match tgt with
  | none => (toks2, none, unkCnt)
  | some _ =>
      let maxSrc := max (V - 1) (maxList (toks2.take srcLen))
      let toks3 := collapseRow maxSrc unk toks2
      (toks3.take srcLen, some (toks3.drop srcLen), unkCnt)

/-- The whole of `_prepare` over a batch: maps `prepareRow` over the
    examples, takes `source_unk_count` as the batch maximum of the per-row
    source-span maxima (line 136), and builds the `extra_zeros` buffer of
    shape `(batch_size, source_unk_count)` (line 137).  Result: the
    `extra_zeros` matrix, the modified source rows and the modified target
    rows. -/
def prepare (V unk : Nat)
    (batch : List ((List Nat × List Nat) × Option (List Nat × List Nat))) :
    List (List ℚ) × List (List Nat) × List (Option (List Nat)) :=
  let rows := batch.map (fun r => prepareRow V unk r.1.1 r.1.2 r.2)
  let cnt := maxList (rows.map (fun r => r.2.2))
  (List.replicate batch.length (List.replicate cnt (0 : ℚ)),
   rows.map (fun r => r.1),
   rows.map (fun r => r.2.1))

/-! ## The Final-Distribution Mixer -/

/-- One cell of `torch.Tensor.scatter_add`: add `v` at index `i`. -/
def scatterAdd1 (b : List ℚ) (i : Nat) (v : ℚ) : List ℚ :=
  b.set i (b.getD i 0 + v)

/-- A row of `vocab_dist.scatter_add(1, tokens, attn_dist)` (pgn.py line
    229): for every source position `k`, `attn_dist[k]` is added at index
    `tokens[k]`; several positions carrying the same index accumulate
    additively. -/
def scatterAddRow (base : List ℚ) (idx : List Nat) (src : List ℚ) : List ℚ :=
  (idx.zip src).foldl (fun b p => scatterAdd1 b p.1 p.2) base

/-- One example's row of `_get_final_dist` (pgn.py lines 210-233).
    `pGen` stands for the sigmoid output of the `p_gen` layer (line 220-221)
    and `vocabDist` for the softmax of the output projections (line 223);
    both layers are external framework modules, so their outputs are taken
    as inputs here.  The function scales `vocabDist` by `pGen` and the
    attention row by `1 - pGen`, pads with the example's `extra_zeros` row
    when the batch has extra slots (line 227-228), scatter-adds the copy
    mass at the extended source-token indices (line 229), and renormalizes
    by the row sum (lines 230-231). -/
def getFinalDist (pGen : ℚ) (vocabDist attnDist : List ℚ) (tokens : List Nat)
    (extraCount : Nat) : List ℚ :=
  let vocabScaled := vocabDist.map (fun x => x * pGen)
  let attnScaled := attnDist.map (fun x => x * (1 - pGen))
  let padded :=
    if extraCount ≠ 0 then vocabScaled ++ List.replicate extraCount 0 else vocabScaled
  let finalDist := scatterAddRow padded tokens attnScaled
  let norm := finalDist.sum
  finalDist.map (fun x => x / norm)

/-! ## The loss -/

/-- The individual loss terms of `torch.nn.NLLLoss(ignore_index=ignore)`
    applied to an input of shape (batch × classes × steps) and a target of
    shape (batch × steps): one term `-input[b][target[b][t]][t]` for every
    batch element `b` and step `t` whose target is not the ignored index. -/
def nllTerms (input : List (List (List ℚ))) (target : List (List Nat))
    (ignore : Nat) : List ℚ :=
  (input.zip target).flatMap (fun q =>
    (List.range q.2.length).filterMap (fun t =>
      if q.2.getD t 0 = ignore then none
      else some (-((q.1.getD (q.2.getD t 0) []).getD t 0))))

/-- `torch.nn.NLLLoss(ignore_index=ignore)` with the default mean
    reduction: the mean of the individual terms over the non-ignored
    positions. -/
def nllLossMean (input : List (List (List ℚ))) (target : List (List Nat))
    (ignore : Nat) : ℚ :=
  (nllTerms input target ignore).sum / (nllTerms input target ignore).length

/-- `PointerGeneratorNetwork._get_loss` (pgn.py lines 298-305): drop the
    first column of the targets (the start token), apply `log (p + eps)`
    entrywise to the stacked step distributions, and take
    `NLLLoss(ignore_index=0)`.  The numeric logarithm is an external real
    function and is abstracted as the parameter `lg`. -/
def getLoss (lg : ℚ → ℚ) (eps : ℚ) (proba : List (List (List ℚ)))
    (targets : List (List Nat)) : ℚ :=
  nllLossMean (proba.map (fun m => m.map (fun r => r.map (fun p => lg (p + eps)))))
    (targets.map (fun t => t.drop 1)) 0

/-! ## The decoding loop -/

/-- The external framework modules used by one decoder step
    (`_prepare_output_projections`, pgn.py lines 170-208).  The decoder
    state type `H` is abstract (it stands for the embedder, LSTM cell and
    projection-layer state: `decoder_hidden`, `decoder_context`,
    `decoder_input`, `attn_context`); encoder outputs and the source mask
    are fixed for a batch and folded into the closures.
    * `attention`: `self._attention.forward(decoder_hidden, encoder_outputs,
      source_mask)` (line 187), or with the coverage vector as an extra
      argument when coverage is enabled (line 190);
    * `nextHidden`: target embedding of the input token, attention context,
      and one LSTM-cell step (lines 182-184, 193-198);
    * `genDist`: the two-layer output projection (line 200) followed by the
      softmax of `_get_final_dist` (line 223);
    * `pGen`: the `p_gen` linear layer followed by the sigmoid
      (lines 219-221). -/
structure StepModules (H : Type) where
  attention : H → Option (List ℚ) → List ℚ
  nextHidden : H → List ℚ → Nat → H
  genDist : H → List ℚ
  pGen : H → List ℚ → ℚ

/-- Elementwise sum (`coverage + attn_scores`, pgn.py line 191). -/
def addVec (a b : List ℚ) : List ℚ := List.zipWith (fun x y => x + y) a b

/-- Elementwise minimum (`torch.min(attn_scores, coverage)`, line 271). -/
def minVec (a b : List ℚ) : List ℚ := List.zipWith min a b

/-- The teacher-forced decoding loop of `_forward_loop`
    (pgn.py lines 255-276) for one example, with
    `scheduled_sampling_ratio = 0` so the input at step `t` is the raw
    target token `t` (line 261).  Returns the per-step final distributions
    and the per-step coverage-loss terms
    `sum(min(attn_scores, coverage))` (line 271), the latter computed on
    the coverage accumulated before the step.  When coverage is enabled
    the attention is called with the coverage vector (line 190) and the
    coverage is updated additively (line 191). -/
def forwardLoop {H : Type} (M : StepModules H) (useCov : Bool)
    (tokens : List Nat) (extraCnt : Nat) :
    List Nat → H → List ℚ → List (List ℚ) × List ℚ
  | [], _, _ => ([], [])
  | tok :: rest, h, cov =>
    let scores := M.attention h (if useCov then some cov else none)
    let covTerm := if useCov then (minVec scores cov).sum else 0
    let cov' := if useCov then addVec cov scores else cov
    let h' := M.nextHidden h scores tok
    let dist := getFinalDist (M.pGen h' scores) (M.genDist h') scores tokens extraCnt
    let res := forwardLoop M useCov tokens extraCnt rest h' cov'
    (dist :: res.1, covTerm :: res.2)

/-- The stacking `proba[:, :, i] = p` of `_forward_loop`
    (pgn.py lines 285-288): the per-step distributions are laid out as a
    (classes × steps) matrix. -/
def stackSteps (numClasses : Nat) (dists : List (List ℚ)) : List (List ℚ) :=
  (List.range numClasses).map (fun c => dists.map (fun d => d.getD c 0))

/-- The two loss components computed by `_forward_loop` for a
    single-example batch (pgn.py lines 283-293): the primary
    negative-log-likelihood loss of the stacked step distributions against
    the modified target sequence, and the coverage loss
    `mean(coverage_loss / num_decoding_steps)`.  The decoding inputs are
    the raw targets without their last element
    (`num_decoding_steps = target_sequence_length - 1`, line 247). -/
def forwardLossParts {H : Type} (M : StepModules H) (useCov : Bool)
    (lg : ℚ → ℚ) (eps : ℚ) (rawTargets modTargets : List Nat)
    (tokens : List Nat) (extraCnt : Nat) (h0 : H) (cov0 : List ℚ) : ℚ × ℚ :=
  let inputs := rawTargets.dropLast
  let res := forwardLoop M useCov tokens extraCnt inputs h0 cov0
  let primary := getLoss lg eps [stackSteps (res.1.headD []).length res.1] [modTargets]
  let covLoss := res.2.sum / (inputs.length : ℚ)
  (primary, covLoss)

/-- The loss returned by `_forward_loop`: the primary loss, plus the
    weighted coverage loss when coverage is enabled (pgn.py lines
    290-293). -/
def forwardLossTotal {H : Type} (M : StepModules H) (useCov : Bool)
    (lg : ℚ → ℚ) (eps : ℚ) (w : ℚ) (rawTargets modTargets : List Nat)
    (tokens : List Nat) (extraCnt : Nat) (h0 : H) (cov0 : List ℚ) : ℚ :=
  (forwardLossParts M useCov lg eps rawTargets modTargets tokens extraCnt h0 cov0).1 +
    (if useCov then
      w * (forwardLossParts M useCov lg eps rawTargets modTargets tokens extraCnt h0 cov0).2
    else 0)

/-- A concrete instance whose attention penalizes already-covered source
    positions, as §4.4 of the spec describes: with zero accumulated
    coverage all mass goes to position 0, afterwards to position 1. -/
def covAttnModules : StepModules Unit where
  attention := fun _ oc =>
    match oc with
    | none => [1, 0]
    | some c => if c = [0, 0] then [1, 0] else [0, 1]
  nextHidden := fun _ _ _ => ()
  genDist := fun _ => [1/2, 1/2]
  pGen := fun _ _ => 1/2

/-- A concrete instance whose attention ignores the coverage argument. -/
def constAttnModules : StepModules Unit where
  attention := fun _ _ => [1, 0]
  nextHidden := fun _ _ _ => ()
  genDist := fun _ => [1/2, 1/2]
  pGen := fun _ _ => 1/2

/-! ## The Output Decoder -/

/-- The `unk_tokens` list built inside `decode` (pgn.py lines 347-352):
    scan the example's `source_to_target` row next to its literal source
    tokens; at each position holding the target unknown index, append the
    literal token unless it is already present (deduplication by string
    equality). -/
def buildUnkTokens (unk : Nat) (s2t : List Nat) (ws : List String) : List String :=
  (s2t.zip ws).foldl
    (fun acc p => if p.1 = unk then (if p.2 ∈ acc then acc else acc ++ [p.2]) else acc)
    []

/-- `indices[:indices.index(end)]` guarded by `if end in indices`
    (pgn.py lines 343-344). -/
def truncAtEnd (endIdx : Nat) (l : List Nat) : List Nat :=
  if endIdx ∈ l then l.take (List.indexOf endIdx l) else l

/-- One predicted index mapped to a token (pgn.py lines 354-359): below the
    fixed target vocabulary size, a vocabulary lookup (the vocabulary is an
    external framework object, abstracted as `vocabTok`); otherwise the
    out-of-vocabulary token at rank `x - V`, `none` modelling the fatal
    `IndexError` when the rank is outside the recovered list. -/
def mapIndex (V : Nat) (vocabTok : Nat → String) (unkToks : List String)
    (x : Nat) : Option String :=
  if x < V then some (vocabTok x) else unkToks[x - V]?

/-- The sequential token-append loop of `decode` (lines 354-360): stops
    with `none` at the first failing index. -/
def mapTokens {α β : Type} (f : α → Option β) : List α → Option (List β)
  | [] => some []
  | x :: xs =>
      match f x, mapTokens f xs with
      | some w, some ws => some (w :: ws)
      | _, _ => none

/-- `decode` for one example given an already one-dimensional index row
    (pgn.py lines 341-360): truncate at the first end index, then map every
    index through the vocabulary or the recovered out-of-vocabulary
    list. -/
def decodeIndices (endIdx V : Nat) (vocabTok : Nat → String) (unk : Nat)
    (s2t : List Nat) (srcWords : List String) (indices : List Nat) :
    Option (List String) :=
  mapTokens (mapIndex V vocabTok (buildUnkTokens unk s2t srcWords))
    (truncAtEnd endIdx indices)

/-- `decode` for one example whose predictions carry ranked beam
    hypotheses (pgn.py lines 339-340): only the top-ranked hypothesis
    (`indices[0]`) is decoded. -/
def decodeTop (endIdx V : Nat) (vocabTok : Nat → String) (unk : Nat)
    (s2t : List Nat) (srcWords : List String) (hyps : List (List Nat)) :
    Option (List String) :=
  decodeIndices endIdx V vocabTok unk s2t srcWords (hyps.headD [])

/-- The positions of the `source_to_target` row marked unknown, as their
    literal source tokens, in order (the candidates scanned by the
    `unk_tokens` loop). -/
def unkSourceTokens (unk : Nat) (s2t : List Nat) (ws : List String) : List String :=
  (s2t.zip ws).filterMap (fun p => if p.1 = unk then some p.2 else none)

/-- Reference first-occurrence deduplication: keep each element the first
    time it appears, dropping all its later occurrences. -/
def firstOcc {α : Type} [DecidableEq α] : List α → List α
  | [] => []
  | x :: xs => x :: firstOcc (xs.filter (fun y => decide (y ≠ x)))
termination_by l => l.length
decreasing_by
  simp only [List.length_cons]
  exact Nat.lt_succ_of_le (List.length_filter_le _ _)

/-! ## Inference decoding -/

/-- Modelled from the spec: the framework's `BeamSearch.search` routine is
    external code (pgn.py line 68 only constructs it with
    `max_steps = max_decoding_steps` and line 313 calls it); §4.7 of the
    spec gives its contract — expand each live hypothesis by one token,
    terminate a hypothesis on the end-of-sequence index, cap total steps —
    and beam size 1 reduces to greedy decoding, one `take_step` call per
    decoding step. -/
def greedySearch {S : Type} (step : S → Nat × S) (eosIdx : Nat) :
    Nat → S → List Nat
  | 0, _ => []
  | n + 1, s =>
      let r := step s
      if r.1 = eosIdx then [r.1] else r.1 :: greedySearch step eosIdx n r.2

/-! ## The evaluation pairing -/

/-- `" ".join(...)` (evaluate.py lines 65, 80-84). -/
def joinSpace (ws : List String) : String := String.intercalate " " ws

/-- Python's `str.strip()`: remove leading and trailing whitespace. -/
def stripStr (s : String) : String :=
  String.mk (((s.data.dropWhile Char.isWhitespace).reverse.dropWhile
    Char.isWhitespace).reverse)

/-- The empty-string guard of `evaluate` (evaluate.py lines 66-71): a
    string whose stripped form has length at most one is replaced by the
    placeholder `"empty"`. -/
def substEmpty (s : String) : String :=
  if (stripStr s).length ≤ 1 then "empty" else s

/-- The single-reference branch of `evaluate` (evaluate.py lines 64-72):
    `postHyp` is the already detokenized (or subword-joined) hypothesis
    string — the text post-processing is outside the core — and `target`
    the reference string; both pass through the empty-string guard, and
    the reference is wrapped in a one-element list. -/
def processPairSingle (postHyp target : String) : String × List String :=
  (substEmpty postHyp, [substEmpty target])

/-- `w.replace("<", "&lt;").replace(">", "&gt;").strip()` (evaluate.py
    lines 81-82). -/
def escapeAngle (w : String) : String :=
  stripStr ((w.replace "<" "&lt;").replace ">" "&gt;")

/-- The multiple-reference branch of `evaluate` (evaluate.py lines 73-84):
    the decoded words are joined, split on `"s_s"`, angle-escaped and
    re-joined; the reference sentences are angle-escaped and joined into a
    one-element list.  No empty-string guard is applied on this path. -/
def processPairMulti (decodedWords : List String) (referenceSents : List String) :
    String × List String :=
  let decodedSents := (joinSpace decodedWords).splitOn "s_s"
  let hyp := joinSpace (decodedSents.map escapeAngle)
  let ref := [joinSpace (referenceSents.map escapeAngle)]
  (hyp, ref)

/-! ## List helper lemmas -/

theorem getD_map_zip {α β γ : Type} (f : α × β → γ) :
    ∀ (l1 : List α) (l2 : List β) (p : Nat), p < l1.length → p < l2.length →
      ∀ (d : γ) (d1 : α) (d2 : β),
        ((l1.zip l2).map f).getD p d = f (l1.getD p d1, l2.getD p d2)
  | [], _, p, h1, _, _, _, _ => absurd h1 (by simp)
  | _ :: _, [], p, _, h2, _, _, _ => absurd h2 (by simp)
  | x :: xs, y :: ys, 0, _, _, d, d1, d2 => rfl
  | x :: xs, y :: ys, p + 1, h1, h2, d, d1, d2 => by
      simpa using getD_map_zip f xs ys p (by simpa using h1) (by simpa using h2) d d1 d2

theorem getD_map_of_lt {α β : Type} (f : α → β) :
    ∀ (l : List α) (p : Nat), p < l.length → ∀ (d : β) (d1 : α),
      (l.map f).getD p d = f (l.getD p d1)
  | [], p, h, _, _ => absurd h (by simp)
  | x :: xs, 0, _, d, d1 => rfl
  | x :: xs, p + 1, h, d, d1 => by
      simpa using getD_map_of_lt f xs p (by simpa using h) d d1

theorem getD_append_left {α : Type} :
    ∀ (l l' : List α) (p : Nat), p < l.length → ∀ (d : α),
      (l ++ l').getD p d = l.getD p d
  | [], _, p, h, _ => absurd h (by simp)
  | x :: xs, l', 0, _, d => rfl
  | x :: xs, l', p + 1, h, d => by
      simpa using getD_append_left xs l' p (by simpa using h) d

theorem getD_append_right_add {α : Type} :
    ∀ (l l' : List α) (p : Nat) (d : α),
      (l ++ l').getD (l.length + p) d = l'.getD p d
  | [], _, p, d => by simp
  | x :: xs, l', p, d => by
      simpa [Nat.succ_add] using getD_append_right_add xs l' p d

theorem getD_take_of_lt {α : Type} :
    ∀ (l : List α) (n p : Nat), p < n → ∀ (d : α),
      (l.take n).getD p d = l.getD p d
  | [], _, _, _, _ => by simp
  | x :: xs, 0, p, h, d => absurd h (by omega)
  | x :: xs, n + 1, 0, _, d => rfl
  | x :: xs, n + 1, p + 1, h, d => by
      simpa using getD_take_of_lt xs n p (by omega) d

theorem getD_drop_add {α : Type} :
    ∀ (l : List α) (n p : Nat) (d : α), (l.drop n).getD p d = l.getD (n + p) d
  | _, 0, _, _ => by simp
  | [], n + 1, p, d => by simp
  | x :: xs, n + 1, p, d => by
      have h := getD_drop_add xs n p d
      simp only [List.drop_succ_cons, Nat.succ_add, List.getD_cons_succ]
      exact h

theorem getD_le_maxList : ∀ (l : List Nat) (p : Nat), l.getD p 0 ≤ maxList l
  | [], p => by simp [maxList]
  | x :: xs, 0 => by simp [maxList]
  | x :: xs, p + 1 => by
      have h := getD_le_maxList xs p
      simp only [maxList, List.foldr_cons, List.getD_cons_succ] at h ⊢
      omega

theorem mem_listDedup {a : Nat} : ∀ {l : List Nat}, a ∈ listDedup l ↔ a ∈ l
  | [] => Iff.rfl
  | x :: xs => by
      by_cases hx : x ∈ xs
      · simp only [listDedup, if_pos hx, List.mem_cons, mem_listDedup (l := xs)]
        constructor
        · exact Or.inr
        · rintro (rfl | h)
          · exact hx
          · exact h
      · simp [listDedup, if_neg hx, mem_listDedup (l := xs)]

theorem nodup_listDedup : ∀ (l : List Nat), (listDedup l).Nodup
  | [] => List.nodup_nil
  | x :: xs => by
      by_cases hx : x ∈ xs
      · simpa [listDedup, if_pos hx] using nodup_listDedup xs
      · have : (x :: listDedup xs).Nodup :=
          List.Nodup.cons (fun h => hx (mem_listDedup.mp h)) (nodup_listDedup xs)
        simpa [listDedup, if_neg hx] using this

theorem distinctLT_zero (l : List Nat) : distinctLT l 0 = 0 := by
  simp [distinctLT]

theorem countP_split_zero (d : Nat) (hd : 0 < d) :
    ∀ zs : List Nat,
      zs.countP (fun x => decide (x < d)) =
        zs.countP (fun x => decide (0 < x) && decide (x < d)) + zs.count 0
  | [] => rfl
  | z :: rest => by
      have h := countP_split_zero d hd rest
      rcases Nat.eq_zero_or_pos z with hz | hz
      · subst hz
        simp only [List.countP_cons, List.count_cons]
        simp only [hd, h]
        simp
        omega
      · simp only [List.countP_cons, List.count_cons]
        have hz' : (z == 0) = false := by
          simp [Nat.pos_iff_ne_zero.mp hz]
        by_cases hlt : z < d
        · simp only [hz, hlt, hz', h]
          simp
          try omega
        · simp only [hz, hlt, hz', h]
          simp
          try omega

/-- When `0` occurs in `l` (as it does in the masked-identity row of any
    example having at least one in-vocabulary position), the rank of a
    positive value `d` among the sorted distinct values of `l` is one more
    than the number of distinct positive values of `l` below `d`. -/
theorem distinctLT_eq_of_zero_mem (l : List Nat) (d : Nat) (h0 : (0 : Nat) ∈ l)
    (hd : 0 < d) :
    distinctLT l d =
      ((listDedup l).filter (fun x => decide (0 < x) && decide (x < d))).length + 1 := by
  have hmem : (0 : Nat) ∈ listDedup l := mem_listDedup.mpr h0
  have hcount : (listDedup l).count 0 = 1 :=
    List.count_eq_one_of_mem (nodup_listDedup l) hmem
  have hsplit := countP_split_zero d hd (listDedup l)
  simp only [distinctLT, ← List.countP_eq_length_filter]
  omega

/-! ## Characterization of the Extended-Vocabulary Builder -/

theorem length_maskedIds (unk : Nat) (toks ids : List Nat) :
    (maskedIds unk toks ids).length = min toks.length ids.length := by
  simp [maskedIds]

theorem length_rewriteTokens (V unk : Nat) (toks ids : List Nat)
    (hlen : ids.length = toks.length) :
    (rewriteTokens V unk toks ids).length = toks.length := by
  simp [rewriteTokens, length_maskedIds, hlen]

theorem maskedIds_getD (unk : Nat) (toks ids : List Nat)
    (hlen : ids.length = toks.length) (p : Nat) (hp : p < toks.length) :
    (maskedIds unk toks ids).getD p 0 =
      (ids.getD p 0) * (if toks.getD p 0 = unk then 1 else 0) := by
  unfold maskedIds
  rw [getD_map_zip _ toks ids p hp (by omega) 0 0 0]

theorem rewriteTokens_getD (V unk : Nat) (toks ids : List Nat)
    (hlen : ids.length = toks.length) (p : Nat) (hp : p < toks.length) :
    (rewriteTokens V unk toks ids).getD p 0 =
      (toks.getD p 0) - (toks.getD p 0) * (if toks.getD p 0 = unk then 1 else 0)
        + (V - 1) * (if toks.getD p 0 = unk then 1 else 0)
        + distinctLT (maskedIds unk toks ids)
            ((ids.getD p 0) * (if toks.getD p 0 = unk then 1 else 0)) := by
  have hm : (maskedIds unk toks ids).length = toks.length := by
    simp [length_maskedIds, hlen]
  have h1 := maskedIds_getD unk toks ids hlen p hp
  unfold rewriteTokens
  rw [getD_map_zip _ toks (maskedIds unk toks ids) p hp (by omega) 0 0 0, h1]

/-- An out-of-vocabulary position whose identity id `d` is positive, in an
    example whose masked-identity row contains a zero (i.e. with at least one
    in-vocabulary position), is rewritten to
    `target_vocab_size + (number of distinct positive masked ids below d)`:
    the local rank effectively starts at 1, not 0. -/
theorem rewriteTokens_getD_unk (V unk : Nat) (toks ids : List Nat)
    (hV : 1 ≤ V) (hlen : ids.length = toks.length) (p : Nat)
    (hp : p < toks.length) (hunk : toks.getD p 0 = unk)
    (hd : 0 < ids.getD p 0)
    (h0 : (0 : Nat) ∈ maskedIds unk toks ids) :
    (rewriteTokens V unk toks ids).getD p 0 =
      V + ((listDedup (maskedIds unk toks ids)).filter
            (fun x => decide (0 < x) && decide (x < ids.getD p 0))).length := by
  rw [rewriteTokens_getD V unk toks ids hlen p hp, hunk, if_pos (rfl : unk = unk)]
  simp only [Nat.mul_one]
  rw [distinctLT_eq_of_zero_mem _ _ h0 hd]
  omega

/-- An in-vocabulary position is left unchanged by the rewrite: the inverse
    index it receives is that of the masked value `0`, which is `0`. -/
theorem rewriteTokens_getD_ne (V unk : Nat) (toks ids : List Nat)
    (hlen : ids.length = toks.length) (p : Nat) (hp : p < toks.length)
    (hne : toks.getD p 0 ≠ unk) :
    (rewriteTokens V unk toks ids).getD p 0 = toks.getD p 0 := by
  rw [rewriteTokens_getD V unk toks ids hlen p hp, if_neg hne]
  simp only [Nat.mul_zero, Nat.sub_zero, Nat.zero_mul, Nat.add_zero, Nat.zero_add,
    distinctLT_zero]

theorem length_collapseRow (m unk : Nat) (l : List Nat) :
    (collapseRow m unk l).length = l.length := by
  simp [collapseRow]

theorem collapseRow_getD (m unk : Nat) (l : List Nat) (p : Nat)
    (hp : p < l.length) :
    (collapseRow m unk l).getD p 0 =
      if m < l.getD p 0 then unk else l.getD p 0 := by
  have h1 : (collapseRow m unk l).getD p 0 =
      l.getD p 0 - l.getD p 0 * (if m < l.getD p 0 then 1 else 0)
        + unk * (if m < l.getD p 0 then 1 else 0) := by
    unfold collapseRow
    exact getD_map_of_lt _ l p hp 0 0
  rw [h1]
  by_cases h : m < l.getD p 0
  · rw [if_pos h, if_pos h]
    omega
  · rw [if_neg h, if_neg h]
    omega

/-- Within the source span, the collapse loop of `_prepare` is the identity:
    every source value is bounded by the source-span maximum, hence by the
    collapse threshold. -/
theorem prepareRow_modifiedSource_getD (V unk : Nat) (s si tt ti : List Nat)
    (hsrc : si.length = s.length) (htgt : ti.length = tt.length)
    (j : Nat) (hj : j < s.length) :
    (prepareRow V unk s si (some (tt, ti))).1.getD j 0 =
      (rewriteTokens V unk (s ++ tt) (si ++ ti)).getD j 0 := by
  have hlen : (si ++ ti).length = (s ++ tt).length := by
    simp [hsrc, htgt]
  have hlen2 : (rewriteTokens V unk (s ++ tt) (si ++ ti)).length = (s ++ tt).length :=
    length_rewriteTokens V unk _ _ hlen
  have hjlen : j < (rewriteTokens V unk (s ++ tt) (si ++ ti)).length := by
    rw [hlen2]; simp; omega
  simp only [prepareRow, tgtToksOf, tgtIdsOf]
  rw [getD_take_of_lt _ _ _ hj, collapseRow_getD _ _ _ j hjlen]
  have h1 : (rewriteTokens V unk (s ++ tt) (si ++ ti)).getD j 0 =
      ((rewriteTokens V unk (s ++ tt) (si ++ ti)).take s.length).getD j 0 :=
    (getD_take_of_lt _ _ _ hj 0).symm
  have h2 := getD_le_maxList ((rewriteTokens V unk (s ++ tt) (si ++ ti)).take s.length) j
  have h3 : (rewriteTokens V unk (s ++ tt) (si ++ ti)).getD j 0 ≤
      max (V - 1) (maxList ((rewriteTokens V unk (s ++ tt) (si ++ ti)).take s.length)) := by
    omega
  rw [if_neg (by omega)]

/-- The modified target of `_prepare`: position `p` of the target span keeps
    its rewritten value unless that value exceeds
    `max (V - 1) (source-span maximum)`, in which case it becomes the
    unknown-token index. -/
theorem prepareRow_modifiedTarget_getD (V unk : Nat) (s si tt ti : List Nat)
    (hsrc : si.length = s.length) (htgt : ti.length = tt.length)
    (p : Nat) (hp : p < tt.length) :
    ((prepareRow V unk s si (some (tt, ti))).2.1.getD []).getD p 0 =
      if max (V - 1) (maxList ((rewriteTokens V unk (s ++ tt) (si ++ ti)).take s.length)) <
          (rewriteTokens V unk (s ++ tt) (si ++ ti)).getD (s.length + p) 0
      then unk
      else (rewriteTokens V unk (s ++ tt) (si ++ ti)).getD (s.length + p) 0 := by
  have hlen : (si ++ ti).length = (s ++ tt).length := by
    simp [hsrc, htgt]
  have hlen2 : (rewriteTokens V unk (s ++ tt) (si ++ ti)).length = (s ++ tt).length :=
    length_rewriteTokens V unk _ _ hlen
  have hplen : s.length + p < (rewriteTokens V unk (s ++ tt) (si ++ ti)).length := by
    rw [hlen2]; simp; omega
  simp only [prepareRow, tgtToksOf, tgtIdsOf, Option.getD_some]
  rw [getD_drop_add, collapseRow_getD _ _ _ _ hplen]

/-! ## Claims C1 and C2 -/

/-- C1 (amended): for every example, an out-of-vocabulary source entry with
    positive identity id `d`, in an example whose masked identity row
    contains a zero (at least one in-vocabulary position), is rewritten to
    `target_vocab_size + r0`, where `r0` is the number of distinct positive
    masked identity values below `d` over the source-then-target
    concatenation; when identity ids are assigned in first-occurrence order
    this makes the local rank effectively 1-based, so the example's first
    out-of-vocabulary word receives `target_vocab_size` (not
    `target_vocab_size - 1`), and it receives this same extended index at
    every source position, and at every target position holding the same
    identity id. -/
theorem extended_index_of_source_oov
    (V unk : Nat) (s si : List Nat) (tgt : Option (List Nat × List Nat))
    (hV : 1 ≤ V)
    (hsrc : si.length = s.length)
    (htgt : (tgtIdsOf tgt).length = (tgtToksOf tgt).length)
    (j : Nat) (hj : j < s.length) (hunk : s.getD j 0 = unk)
    (hd : 0 < si.getD j 0)
    (h0 : (0 : Nat) ∈ maskedIds unk (s ++ tgtToksOf tgt) (si ++ tgtIdsOf tgt)) :
    (prepareRow V unk s si tgt).1.getD j 0 =
      V + ((listDedup (maskedIds unk (s ++ tgtToksOf tgt) (si ++ tgtIdsOf tgt))).filter
            (fun x => decide (0 < x) && decide (x < si.getD j 0))).length ∧
    (∀ tt ti p, tgt = some (tt, ti) → p < tt.length →
      tt.getD p 0 = unk → ti.getD p 0 = si.getD j 0 →
      ((prepareRow V unk s si tgt).2.1.getD []).getD p 0 =
        V + ((listDedup (maskedIds unk (s ++ tgtToksOf tgt) (si ++ tgtIdsOf tgt))).filter
              (fun x => decide (0 < x) && decide (x < si.getD j 0))).length) := by
  have hlen : (si ++ tgtIdsOf tgt).length = (s ++ tgtToksOf tgt).length := by
    simp [hsrc, htgt]
  have hjc : j < (s ++ tgtToksOf tgt).length := by simp; omega
  have htj : (s ++ tgtToksOf tgt).getD j 0 = unk := by
    rw [getD_append_left _ _ _ hj]; exact hunk
  have hij : (si ++ tgtIdsOf tgt).getD j 0 = si.getD j 0 :=
    getD_append_left _ _ _ (by omega) 0
  have hsrcval : (rewriteTokens V unk (s ++ tgtToksOf tgt) (si ++ tgtIdsOf tgt)).getD j 0 =
      V + ((listDedup (maskedIds unk (s ++ tgtToksOf tgt) (si ++ tgtIdsOf tgt))).filter
            (fun x => decide (0 < x) && decide (x < si.getD j 0))).length := by
    have h := rewriteTokens_getD_unk V unk _ _ hV hlen j hjc htj
      (by rw [hij]; exact hd) h0
    rw [hij] at h
    exact h
  cases tgt with
  | none =>
      constructor
      · simp only [prepareRow]
        exact hsrcval
      · intro tt ti p habs
        exact absurd habs (by simp)
  | some pr =>
      obtain ⟨tt, ti⟩ := pr
      have htgt' : ti.length = tt.length := by simpa [tgtIdsOf, tgtToksOf] using htgt
      constructor
      · rw [prepareRow_modifiedSource_getD V unk s si tt ti hsrc htgt' j hj]
        simpa [tgtToksOf, tgtIdsOf] using hsrcval
      · intro tt' ti' p heq hp htp hti
        injection heq with h1
        injection h1 with h2 h3
        subst h2
        subst h3
        simp only [tgtToksOf, tgtIdsOf] at hsrcval h0 hlen ⊢
        have hpc : s.length + p < (s ++ tt).length := by simp; omega
        have htp' : (s ++ tt).getD (s.length + p) 0 = unk := by
          rw [getD_append_right_add]; exact htp
        have hip' : (si ++ ti).getD (s.length + p) 0 = si.getD j 0 := by
          have h := getD_append_right_add si ti p 0
          rw [hsrc] at h
          rw [h]; exact hti
        have hpreval : (rewriteTokens V unk (s ++ tt) (si ++ ti)).getD (s.length + p) 0 =
            V + ((listDedup (maskedIds unk (s ++ tt) (si ++ ti))).filter
                  (fun x => decide (0 < x) && decide (x < si.getD j 0))).length := by
          have h := rewriteTokens_getD_unk V unk _ _ hV hlen (s.length + p) hpc htp'
            (by rw [hip']; exact hd) h0
          rw [hip'] at h
          exact h
        rw [prepareRow_modifiedTarget_getD V unk s si tt ti hsrc htgt' p hp, hpreval]
        have h1 : (rewriteTokens V unk (s ++ tt) (si ++ ti)).getD j 0 =
            ((rewriteTokens V unk (s ++ tt) (si ++ ti)).take s.length).getD j 0 :=
          (getD_take_of_lt _ _ _ hj 0).symm
        have h2 := getD_le_maxList ((rewriteTokens V unk (s ++ tt) (si ++ ti)).take s.length) j
        rw [if_neg (by omega)]

/-- C1 counterexample: the spec scenario (source "the zorblax ran", target
    "zorblax ran fast", `target_vocab_size = 10`, unknown index 1,
    identity ids in first-occurrence order `the=0, zorblax=1, ran=2,
    fast=3`).  The first out-of-vocabulary word "zorblax" (source position
    1) receives extended index 10 = `target_vocab_size`, not
    `target_vocab_size - 1 + 0 = 9` as the claim states. -/
theorem extended_index_of_source_oov_cex :
    (prepareRow 10 1 [4, 1, 5] [0, 1, 2] (some ([1, 5, 1], [1, 2, 3]))).1.getD 1 0 = 10 ∧
    (prepareRow 10 1 [4, 1, 5] [0, 1, 2] (some ([1, 5, 1], [1, 2, 3]))).1.getD 1 0 ≠
      10 - 1 + 0 := by
  decide

/-- Witness for C1 (amended) at the spec scenario: "zorblax" receives
    extended index 10 at its source position and at its target position. -/
theorem extended_index_of_source_oov_witness :
    (prepareRow 10 1 [4, 1, 5] [0, 1, 2] (some ([1, 5, 1], [1, 2, 3]))).1.getD 1 0 = 10 ∧
    ((prepareRow 10 1 [4, 1, 5] [0, 1, 2] (some ([1, 5, 1], [1, 2, 3]))).2.1.getD []).getD 0 0 = 10 := by
  have h := extended_index_of_source_oov 10 1 [4, 1, 5] [0, 1, 2]
    (some ([1, 5, 1], [1, 2, 3])) (by decide) (by decide) (by decide)
    1 (by decide) (by decide) (by decide) (by decide)
  constructor
  · rw [h.1]; decide
  · rw [h.2 [1, 5, 1] [1, 2, 3] 0 rfl (by decide) (by decide) (by decide)]; decide

/-- C2 (amended): after extended-index rewriting, a target-side position is
    collapsed to the unknown-token id exactly when its rewritten index
    exceeds `max (target_vocab_size - 1) (maximum rewritten index of the
    source span)` — the threshold is clamped from below by
    `target_vocab_size - 1`, so in-vocabulary target tokens are never
    collapsed even when their index exceeds every source-span index; all
    other target positions keep their rewritten index. -/
theorem target_collapse_threshold (V unk : Nat) (s si tt ti : List Nat)
    (hsrc : si.length = s.length) (htgt : ti.length = tt.length)
    (p : Nat) (hp : p < tt.length) :
    ((prepareRow V unk s si (some (tt, ti))).2.1.getD []).getD p 0 =
      if max (V - 1) (maxList ((rewriteTokens V unk (s ++ tt) (si ++ ti)).take s.length)) <
          (rewriteTokens V unk (s ++ tt) (si ++ ti)).getD (s.length + p) 0
      then unk
      else (rewriteTokens V unk (s ++ tt) (si ++ ti)).getD (s.length + p) 0 :=
  prepareRow_modifiedTarget_getD V unk s si tt ti hsrc htgt p hp

/-- C2 counterexample: `target_vocab_size = 10`, unknown index 1, source
    `[3]` (in vocabulary), target `[7]` (in vocabulary).  The target's
    rewritten index 7 exceeds the maximum source-span rewritten index 3,
    yet the code keeps 7 (the threshold is clamped at
    `target_vocab_size - 1 = 9`), whereas the claim demands collapse to the
    unknown id 1. -/
theorem target_collapse_threshold_cex :
    (prepareRow 10 1 [3] [0] (some ([7], [1]))).2.1 = some [7] ∧ (7 : Nat) ≠ 1 := by
  decide

/-- Witness for C2 (amended) at the spec scenario: "fast" (target position
    2, out of vocabulary, absent from the source) collapses to the
    unknown-token id 1. -/
theorem target_collapse_threshold_witness :
    ((prepareRow 10 1 [4, 1, 5] [0, 1, 2] (some ([1, 5, 1], [1, 2, 3]))).2.1.getD []).getD 2 0 = 1 := by
  rw [target_collapse_threshold 10 1 [4, 1, 5] [0, 1, 2] [1, 5, 1] [1, 2, 3]
    (by decide) (by decide) 2 (by decide)]
  decide

/-! ## Claim C3: the mixer output is a probability vector -/

theorem length_scatterAdd1 (b : List ℚ) (i : Nat) (v : ℚ) :
    (scatterAdd1 b i v).length = b.length := by
  simp [scatterAdd1]

theorem sum_scatterAdd1 (b : List ℚ) (v : ℚ) :
    ∀ (i : Nat), i < b.length → (scatterAdd1 b i v).sum = b.sum + v := by
  induction b with
  | nil => intro i h; simp at h
  | cons x xs ih =>
      intro i h
      cases i with
      | zero =>
          simp [scatterAdd1]
          ring
      | succ n =>
          have h' : n < xs.length := by simpa using h
          have hx := ih n h'
          simp only [scatterAdd1] at hx ⊢
          simp only [List.getD_cons_succ, List.set_cons_succ, List.sum_cons]
          rw [hx]
          ring

theorem mem_scatterAdd1 (b : List ℚ) (i : Nat) (v : ℚ) (x : ℚ)
    (hx : x ∈ scatterAdd1 b i v) : x ∈ b ∨ x = b.getD i 0 + v := by
  rcases List.mem_or_eq_of_mem_set hx with h | h
  · exact Or.inl h
  · exact Or.inr h

theorem getD_mem_or_eq {α : Type} :
    ∀ (l : List α) (i : Nat) (d : α), l.getD i d ∈ l ∨ l.getD i d = d
  | [], _, d => Or.inr (by simp)
  | x :: xs, 0, d => Or.inl (by simp)
  | x :: xs, i + 1, d => by
      rcases getD_mem_or_eq xs i d with h | h
      · exact Or.inl (by simp only [List.getD_cons_succ]; exact List.mem_cons_of_mem x h)
      · exact Or.inr (by simpa using h)

theorem nonneg_scatterAdd1 (b : List ℚ) (i : Nat) (v : ℚ)
    (hb : ∀ y ∈ b, 0 ≤ y) (hv : 0 ≤ v) :
    ∀ x ∈ scatterAdd1 b i v, 0 ≤ x := by
  intro x hx
  rcases mem_scatterAdd1 b i v x hx with h | h
  · exact hb x h
  · subst h
    have h0 : 0 ≤ b.getD i 0 := by
      rcases getD_mem_or_eq b i 0 with h | h
      · exact hb _ h
      · rw [h]
    exact add_nonneg h0 hv

theorem length_scatterFold :
    ∀ (ps : List (Nat × ℚ)) (base : List ℚ),
      (ps.foldl (fun b p => scatterAdd1 b p.1 p.2) base).length = base.length
  | [], _ => rfl
  | p :: ps, base => by
      rw [List.foldl_cons, length_scatterFold ps _, length_scatterAdd1]

theorem sum_scatterFold :
    ∀ (ps : List (Nat × ℚ)) (base : List ℚ), (∀ q ∈ ps, q.1 < base.length) →
      (ps.foldl (fun b p => scatterAdd1 b p.1 p.2) base).sum =
        base.sum + (ps.map Prod.snd).sum
  | [], base, _ => by simp
  | p :: ps, base, hb => by
      rw [List.foldl_cons]
      have hlen : (scatterAdd1 base p.1 p.2).length = base.length :=
        length_scatterAdd1 base p.1 p.2
      rw [sum_scatterFold ps _ (fun q hq => by
        rw [hlen]; exact hb q (List.mem_cons_of_mem _ hq))]
      rw [sum_scatterAdd1 base p.2 p.1 (hb p (List.mem_cons_self _ _))]
      simp only [List.map_cons, List.sum_cons]
      ring

theorem nonneg_scatterFold :
    ∀ (ps : List (Nat × ℚ)) (base : List ℚ), (∀ y ∈ base, 0 ≤ y) →
      (∀ q ∈ ps, 0 ≤ q.2) →
      ∀ x ∈ ps.foldl (fun b p => scatterAdd1 b p.1 p.2) base, 0 ≤ x
  | [], base, hb, _ => hb
  | p :: ps, base, hb, hs => by
      rw [List.foldl_cons]
      exact nonneg_scatterFold ps _
        (nonneg_scatterAdd1 base p.1 p.2 hb (hs p (List.mem_cons_self _ _)))
        (fun q hq => hs q (List.mem_cons_of_mem _ hq))

theorem map_snd_zip_eq {α β : Type} :
    ∀ (l1 : List α) (l2 : List β), l1.length = l2.length →
      (l1.zip l2).map Prod.snd = l2
  | [], [], _ => rfl
  | x :: xs, y :: ys, h => by
      simp [map_snd_zip_eq xs ys (by simpa using h)]
  | [], y :: ys, h => by simp at h
  | x :: xs, [], h => by simp at h

theorem sum_map_mul (l : List ℚ) (c : ℚ) :
    (l.map (fun x => x * c)).sum = l.sum * c := by
  induction l with
  | nil => simp
  | cons x xs ih =>
      simp only [List.map_cons, List.sum_cons, ih]
      ring

theorem sum_map_div (l : List ℚ) (s : ℚ) :
    (l.map (fun x => x / s)).sum = l.sum / s := by
  induction l with
  | nil => simp
  | cons x xs ih =>
      simp only [List.map_cons, List.sum_cons, ih]
      ring

theorem map_div_prob (fd : List ℚ) (hnn : ∀ x ∈ fd, 0 ≤ x) (hpos : 0 < fd.sum) :
    (∀ x ∈ fd.map (fun x => x / fd.sum), 0 ≤ x) ∧
      (fd.map (fun x => x / fd.sum)).sum = 1 := by
  constructor
  · intro x hx
    obtain ⟨y, hy, rfl⟩ := List.mem_map.mp hx
    exact div_nonneg (hnn y hy) (le_of_lt hpos)
  · rw [sum_map_div]
    exact div_self (ne_of_gt hpos)

/-- C3: for every example row and decoding step, the Final-Distribution
    Mixer's output is a valid probability vector.  `pGen` is a sigmoid
    output, hence in `(0, 1)`; `vocabDist` is a softmax output, hence
    non-negative with row sum 1; `attnDist` is an attention row, hence
    non-negative; the (possibly extended) source token indices are in range
    for the padded row.  Then after scatter-adding the copy mass and
    dividing by the row sum, every entry is non-negative and the row sums
    to 1. -/
theorem final_dist_valid (pGen : ℚ) (vocabDist attnDist : List ℚ)
    (tokens : List Nat) (extraCount : Nat)
    (hp0 : 0 < pGen) (hp1 : pGen < 1)
    (hv : ∀ x ∈ vocabDist, 0 ≤ x) (hvsum : vocabDist.sum = 1)
    (ha : ∀ x ∈ attnDist, 0 ≤ x)
    (hlen : tokens.length = attnDist.length)
    (hbnd : ∀ i ∈ tokens, i < vocabDist.length + extraCount) :
    (∀ x ∈ getFinalDist pGen vocabDist attnDist tokens extraCount, 0 ≤ x) ∧
      (getFinalDist pGen vocabDist attnDist tokens extraCount).sum = 1 := by
  have hdef : getFinalDist pGen vocabDist attnDist tokens extraCount =
      (scatterAddRow
          (if extraCount ≠ 0 then
            (vocabDist.map (fun x => x * pGen)) ++ List.replicate extraCount 0
          else vocabDist.map (fun x => x * pGen))
          tokens (attnDist.map (fun x => x * (1 - pGen)))).map
        (fun x => x /
          (scatterAddRow
            (if extraCount ≠ 0 then
              (vocabDist.map (fun x => x * pGen)) ++ List.replicate extraCount 0
            else vocabDist.map (fun x => x * pGen))
            tokens (attnDist.map (fun x => x * (1 - pGen)))).sum) := rfl
  rw [hdef]
  set padded :=
    (if extraCount ≠ 0 then
      (vocabDist.map (fun x => x * pGen)) ++ List.replicate extraCount (0 : ℚ)
    else vocabDist.map (fun x => x * pGen)) with hpad
  have hpad_len : padded.length = vocabDist.length + extraCount := by
    rw [hpad]
    by_cases h : extraCount ≠ 0
    · simp [h]
    · push_neg at h
      simp [h]
  have hpad_sum : padded.sum = pGen := by
    rw [hpad]
    by_cases h : extraCount ≠ 0
    · rw [if_pos h, List.sum_append, sum_map_mul, hvsum, one_mul]
      simp
    · rw [if_neg h, sum_map_mul, hvsum, one_mul]
  have hpad_nonneg : ∀ x ∈ padded, 0 ≤ x := by
    intro x hx
    rw [hpad] at hx
    have hmem : x ∈ vocabDist.map (fun x => x * pGen) ∨ x = 0 := by
      by_cases h : extraCount ≠ 0
      · rw [if_pos h] at hx
        rcases List.mem_append.mp hx with h1 | h1
        · exact Or.inl h1
        · exact Or.inr (List.eq_of_mem_replicate h1)
      · rw [if_neg h] at hx
        exact Or.inl hx
    rcases hmem with h1 | h1
    · obtain ⟨y, hy, rfl⟩ := List.mem_map.mp h1
      exact mul_nonneg (hv y hy) (le_of_lt hp0)
    · rw [h1]
  have hbounds : ∀ q ∈ tokens.zip (attnDist.map (fun x => x * (1 - pGen))),
      q.1 < padded.length := by
    intro q hq
    rw [hpad_len]
    exact hbnd q.1 (List.of_mem_zip hq).1
  have hsrc_nonneg : ∀ q ∈ tokens.zip (attnDist.map (fun x => x * (1 - pGen))),
      0 ≤ q.2 := by
    intro q hq
    have h2 := (List.of_mem_zip hq).2
    obtain ⟨y, hy, heq⟩ := List.mem_map.mp h2
    rw [← heq]
    exact mul_nonneg (ha y hy) (by linarith)
  have hfd_sum : (scatterAddRow padded tokens
      (attnDist.map (fun x => x * (1 - pGen)))).sum =
      pGen + attnDist.sum * (1 - pGen) := by
    unfold scatterAddRow
    rw [sum_scatterFold _ _ hbounds,
      map_snd_zip_eq tokens (attnDist.map (fun x => x * (1 - pGen))) (by simp [hlen]),
      hpad_sum, sum_map_mul]
  have hfd_nonneg : ∀ x ∈ scatterAddRow padded tokens
      (attnDist.map (fun x => x * (1 - pGen))), 0 ≤ x := by
    unfold scatterAddRow
    exact nonneg_scatterFold _ _ hpad_nonneg hsrc_nonneg
  have hS_pos : 0 < (scatterAddRow padded tokens
      (attnDist.map (fun x => x * (1 - pGen)))).sum := by
    rw [hfd_sum]
    have h1 : 0 ≤ attnDist.sum := List.sum_nonneg ha
    have h2 : 0 ≤ attnDist.sum * (1 - pGen) := mul_nonneg h1 (by linarith)
    linarith
  exact map_div_prob _ hfd_nonneg hS_pos

/-- Witness for C3: a concrete mixer input (gate 1/2, uniform generation
    distribution over two classes, all attention mass on one source
    position carrying extended index 2, one extra slot). -/
theorem final_dist_valid_witness :
    (∀ x ∈ getFinalDist (1/2) [1/2, 1/2] [1] [2] 1, 0 ≤ x) ∧
      (getFinalDist (1/2) [1/2, 1/2] [1] [2] 1).sum = 1 := by
  refine final_dist_valid (1/2) [1/2, 1/2] [1] [2] 1 (by norm_num) (by norm_num)
    ?_ ?_ ?_ (by simp) ?_
  · intro x hx
    simp at hx
    subst hx
    norm_num
  · norm_num
  · intro x hx
    simp at hx
    subst hx
    norm_num
  · intro i hi
    simp at hi
    subst hi
    simp

/-! ## Claim C7: the loss -/

theorem sum_map_negQ (l : List ℚ) : (l.map (fun x => -x)).sum = -l.sum := by
  induction l with
  | nil => simp
  | cons x xs ih =>
      simp only [List.map_cons, List.sum_cons, ih]
      ring

theorem flatMap_congr {α β : Type} {f g : α → List β} :
    ∀ {l : List α}, (∀ a ∈ l, f a = g a) → l.flatMap f = l.flatMap g
  | [], _ => rfl
  | x :: xs, h => by
      rw [List.flatMap_cons, List.flatMap_cons, h x (List.mem_cons_self _ _),
        flatMap_congr (fun a ha => h a (List.mem_cons_of_mem _ ha))]

/-- C7: the training loss is the negative log-likelihood of the stacked
    per-step combined distributions (batch × combined vocab × steps)
    against the extended targets shifted by one position (the start token
    is dropped, so step `t` is scored against target position `t + 1`),
    with positions whose target is the padding index 0 excluded, the
    epsilon added to the probability before the logarithm, and the result
    averaged over the non-excluded positions. -/
theorem loss_nll_shifted (lg : ℚ → ℚ) (eps : ℚ)
    (proba : List (List (List ℚ))) (targets : List (List Nat))
    (hwf : ∀ q ∈ proba.zip targets, ∀ t, t + 1 < q.2.length →
      q.2.getD (t + 1) 0 ≠ 0 →
      q.2.getD (t + 1) 0 < q.1.length ∧
        t < (q.1.getD (q.2.getD (t + 1) 0) []).length) :
    getLoss lg eps proba targets =
      -((proba.zip targets).flatMap (fun q =>
          (List.range (q.2.length - 1)).filterMap (fun t =>
            if q.2.getD (t + 1) 0 = 0 then none
            else some (lg ((q.1.getD (q.2.getD (t + 1) 0) []).getD t 0 + eps))))).sum /
        ((proba.zip targets).flatMap (fun q =>
          (List.range (q.2.length - 1)).filterMap (fun t =>
            if q.2.getD (t + 1) 0 = 0 then none
            else some (lg ((q.1.getD (q.2.getD (t + 1) 0) []).getD t 0 + eps))))).length := by
  have key : nllTerms
      (proba.map (fun m => m.map (fun r => r.map (fun p => lg (p + eps)))))
      (targets.map (fun t => t.drop 1)) 0 =
      ((proba.zip targets).flatMap (fun q =>
        (List.range (q.2.length - 1)).filterMap (fun t =>
          if q.2.getD (t + 1) 0 = 0 then none
          else some (lg ((q.1.getD (q.2.getD (t + 1) 0) []).getD t 0 + eps))))).map
        (fun x => -x) := by
    unfold nllTerms
    rw [List.zip_map, List.flatMap_map, List.map_flatMap]
    apply flatMap_congr
    intro q hq
    obtain ⟨p1, p2⟩ := q
    simp only [Prod.map_apply]
    rw [List.map_filterMap]
    have hlen : (p2.drop 1).length = p2.length - 1 := by simp
    rw [hlen]
    apply List.filterMap_congr
    intro t ht
    rw [List.mem_range] at ht
    have ht1 : t + 1 < p2.length := by omega
    have hdrop : (p2.drop 1).getD t 0 = p2.getD (t + 1) 0 := by
      rw [getD_drop_add]
      congr 1
      omega
    rw [hdrop]
    by_cases h0 : p2.getD (t + 1) 0 = 0
    · rw [if_pos h0, if_pos h0]
      rfl
    · rw [if_neg h0, if_neg h0]
      have hb := hwf (p1, p2) hq t ht1 h0
      have hc1 : (p1.map (fun r => r.map (fun p => lg (p + eps)))).getD
          (p2.getD (t + 1) 0) [] =
          (p1.getD (p2.getD (t + 1) 0) []).map (fun p => lg (p + eps)) :=
        getD_map_of_lt _ p1 _ hb.1 [] []
      rw [hc1]
      have hc2 : ((p1.getD (p2.getD (t + 1) 0) []).map
          (fun p => lg (p + eps))).getD t 0 =
          lg ((p1.getD (p2.getD (t + 1) 0) []).getD t 0 + eps) :=
        getD_map_of_lt _ _ t hb.2 0 0
      rw [hc2]
      simp
  unfold getLoss nllLossMean
  rw [key, List.length_map, sum_map_negQ]

/-- Witness for C7: one example, two classes, one decoding step.  The
    target sequence is `[9, 1]`; the start entry 9 is dropped, class 1 at
    step 0 has probability 1/4, so the loss is `-lg(1/4 + eps)` with
    `lg = id`, `eps = 0`. -/
theorem loss_nll_shifted_witness :
    getLoss (fun x => x) 0 [[[1/2], [1/4]]] [[9, 1]] = -(1/4) := by
  rw [loss_nll_shifted (fun x => x) 0 [[[1/2], [1/4]]] [[9, 1]] ?_]
  · simp [List.range_succ]
  · intro q hq t ht h0
    simp only [List.zip_cons_cons, List.zip_nil_right, List.mem_singleton] at hq
    subst hq
    simp only [List.length_cons, List.length_nil] at ht
    have : t = 0 := by omega
    subst this
    refine ⟨by simp, ?_⟩
    simp

/-! ## Claim C4: effect of the coverage mechanism on the loss -/

theorem forwardLoop_nil {H : Type} (M : StepModules H) (useCov : Bool)
    (tokens : List Nat) (extraCnt : Nat) (h : H) (cov : List ℚ) :
    forwardLoop M useCov tokens extraCnt [] h cov = ([], []) := rfl

theorem forwardLoop_cons_true {H : Type} (M : StepModules H)
    (tokens : List Nat) (extraCnt : Nat) (tok : Nat) (rest : List Nat)
    (h : H) (cov : List ℚ) :
    forwardLoop M true tokens extraCnt (tok :: rest) h cov =
      (getFinalDist
          (M.pGen (M.nextHidden h (M.attention h (some cov)) tok) (M.attention h (some cov)))
          (M.genDist (M.nextHidden h (M.attention h (some cov)) tok))
          (M.attention h (some cov)) tokens extraCnt ::
        (forwardLoop M true tokens extraCnt rest
          (M.nextHidden h (M.attention h (some cov)) tok)
          (addVec cov (M.attention h (some cov)))).1,
       (minVec (M.attention h (some cov)) cov).sum ::
        (forwardLoop M true tokens extraCnt rest
          (M.nextHidden h (M.attention h (some cov)) tok)
          (addVec cov (M.attention h (some cov)))).2) := rfl

theorem forwardLoop_cons_false {H : Type} (M : StepModules H)
    (tokens : List Nat) (extraCnt : Nat) (tok : Nat) (rest : List Nat)
    (h : H) (cov : List ℚ) :
    forwardLoop M false tokens extraCnt (tok :: rest) h cov =
      (getFinalDist
          (M.pGen (M.nextHidden h (M.attention h none) tok) (M.attention h none))
          (M.genDist (M.nextHidden h (M.attention h none) tok))
          (M.attention h none) tokens extraCnt ::
        (forwardLoop M false tokens extraCnt rest
          (M.nextHidden h (M.attention h none) tok) cov).1,
       (0 : ℚ) ::
        (forwardLoop M false tokens extraCnt rest
          (M.nextHidden h (M.attention h none) tok) cov).2) := rfl

/-- When the attention module ignores its coverage argument, the final
    distributions produced by the teacher-forced loop do not depend on
    whether coverage is enabled (nor on the coverage accumulator). -/
theorem forwardLoop_dists_of_attn_ignores {H : Type} (M : StepModules H)
    (hattn : ∀ h c, M.attention h (some c) = M.attention h none)
    (tokens : List Nat) (extraCnt : Nat) :
    ∀ (inputs : List Nat) (h : H) (c1 c2 : List ℚ),
      (forwardLoop M true tokens extraCnt inputs h c1).1 =
        (forwardLoop M false tokens extraCnt inputs h c2).1
  | [], _, _, _ => rfl
  | tok :: rest, h, c1, c2 => by
      rw [forwardLoop_cons_true, forwardLoop_cons_false]
      dsimp only
      rw [hattn h c1]
      rw [forwardLoop_dists_of_attn_ignores M hattn tokens extraCnt rest _ _ c2]

/-- C4 (amended): the coverage term is attached additively to the loss,
    and the primary negative-log-likelihood part is unchanged by disabling
    coverage PROVIDED the attention module ignores its coverage input.  In
    general (see the counterexample) enabling coverage also changes the
    attention distributions themselves (pgn.py line 190), and with them
    the primary loss. -/
theorem coverage_additive_of_attn_ignores {H : Type} (M : StepModules H)
    (hattn : ∀ h c, M.attention h (some c) = M.attention h none)
    (lg : ℚ → ℚ) (eps : ℚ) (w : ℚ) (rawTargets modTargets tokens : List Nat)
    (extraCnt : Nat) (h0 : H) (cov0 : List ℚ) :
    (forwardLossParts M true lg eps rawTargets modTargets tokens extraCnt h0 cov0).1 =
      (forwardLossParts M false lg eps rawTargets modTargets tokens extraCnt h0 cov0).1 ∧
    forwardLossTotal M true lg eps w rawTargets modTargets tokens extraCnt h0 cov0 =
      (forwardLossParts M false lg eps rawTargets modTargets tokens extraCnt h0 cov0).1 +
        w * (forwardLossParts M true lg eps rawTargets modTargets tokens extraCnt h0 cov0).2 := by
  have hd := forwardLoop_dists_of_attn_ignores M hattn tokens extraCnt
    rawTargets.dropLast h0 cov0 cov0
  have hp : (forwardLossParts M true lg eps rawTargets modTargets tokens extraCnt h0 cov0).1 =
      (forwardLossParts M false lg eps rawTargets modTargets tokens extraCnt h0 cov0).1 := by
    simp only [forwardLossParts]
    rw [hd]
  refine ⟨hp, ?_⟩
  have ht : forwardLossTotal M true lg eps w rawTargets modTargets tokens extraCnt h0 cov0 =
      (forwardLossParts M true lg eps rawTargets modTargets tokens extraCnt h0 cov0).1 +
        w * (forwardLossParts M true lg eps rawTargets modTargets tokens extraCnt h0 cov0).2 := rfl
  rw [ht, hp]

/-- Witness for C4 (amended), at a concrete coverage-insensitive attention
    module and concrete inputs. -/
theorem coverage_additive_of_attn_ignores_witness :
    (forwardLossParts constAttnModules true (fun x => x) 0 [9, 3, 3] [9, 1, 1]
        [0, 1] 0 () [0, 0]).1 =
      (forwardLossParts constAttnModules false (fun x => x) 0 [9, 3, 3] [9, 1, 1]
        [0, 1] 0 () [0, 0]).1 ∧
    forwardLossTotal constAttnModules true (fun x => x) 0 1 [9, 3, 3] [9, 1, 1]
        [0, 1] 0 () [0, 0] =
      (forwardLossParts constAttnModules false (fun x => x) 0 [9, 3, 3] [9, 1, 1]
        [0, 1] 0 () [0, 0]).1 +
        1 * (forwardLossParts constAttnModules true (fun x => x) 0 [9, 3, 3] [9, 1, 1]
          [0, 1] 0 () [0, 0]).2 :=
  coverage_additive_of_attn_ignores constAttnModules (fun _ _ => rfl)
    (fun x => x) 0 1 [9, 3, 3] [9, 1, 1] [0, 1] 0 () [0, 0]

/-- C4 counterexample: with a coverage-penalizing attention module (the
    behaviour §4.4 of the spec itself describes), two teacher-forced steps
    on a two-position source produce different attention rows — hence
    different final distributions and a different primary
    negative-log-likelihood — depending on whether coverage is enabled:
    the coverage mechanism's effect on the loss is NOT limited to the
    additively attached coverage term. -/
theorem coverage_not_loss_neutral_cex :
    (forwardLoop covAttnModules true [0, 1] 0 [9, 3] () [0, 0]).1 ≠
      (forwardLoop covAttnModules false [0, 1] 0 [9, 3] () [0, 0]).1 ∧
    (forwardLossParts covAttnModules false (fun x => x) 0 [9, 3, 3] [9, 1, 1]
        [0, 1] 0 () [0, 0]).1 ≠
      forwardLossTotal covAttnModules true (fun x => x) 0 1 [9, 3, 3] [9, 1, 1]
          [0, 1] 0 () [0, 0] -
        1 * (forwardLossParts covAttnModules true (fun x => x) 0 [9, 3, 3] [9, 1, 1]
          [0, 1] 0 () [0, 0]).2 := by
  have hdT : (forwardLoop covAttnModules true [0, 1] 0 [9, 3] () [0, 0]).1 =
      [[3/4, 1/4], [1/4, 3/4]] := by
    norm_num [forwardLoop_cons_true, forwardLoop_nil, covAttnModules, getFinalDist,
      scatterAddRow, scatterAdd1, minVec, addVec]
  have hdF : (forwardLoop covAttnModules false [0, 1] 0 [9, 3] () [0, 0]).1 =
      [[3/4, 1/4], [3/4, 1/4]] := by
    norm_num [forwardLoop_cons_false, forwardLoop_nil, covAttnModules, getFinalDist,
      scatterAddRow, scatterAdd1, minVec, addVec]
  have hF : (forwardLossParts covAttnModules false (fun x => x) 0 [9, 3, 3] [9, 1, 1]
      [0, 1] 0 () [0, 0]).1 = -(1/4) := by
    norm_num [forwardLossParts, forwardLoop_cons_false, forwardLoop_nil, covAttnModules,
      getFinalDist, scatterAddRow, scatterAdd1, minVec, addVec, stackSteps, getLoss,
      nllLossMean, nllTerms, List.range_succ, List.filterMap_cons, List.filterMap_nil]
  have hT : (forwardLossParts covAttnModules true (fun x => x) 0 [9, 3, 3] [9, 1, 1]
      [0, 1] 0 () [0, 0]).1 = -(1/2) := by
    norm_num [forwardLossParts, forwardLoop_cons_true, forwardLoop_nil, covAttnModules,
      getFinalDist, scatterAddRow, scatterAdd1, minVec, addVec, stackSteps, getLoss,
      nllLossMean, nllTerms, List.range_succ, List.filterMap_cons, List.filterMap_nil]
  have hcov : (forwardLossParts covAttnModules true (fun x => x) 0 [9, 3, 3] [9, 1, 1]
      [0, 1] 0 () [0, 0]).2 = 0 := by
    norm_num [forwardLossParts, forwardLoop_cons_true, forwardLoop_nil, covAttnModules,
      getFinalDist, scatterAddRow, scatterAdd1, minVec, addVec]
  have htot : forwardLossTotal covAttnModules true (fun x => x) 0 1 [9, 3, 3] [9, 1, 1]
      [0, 1] 0 () [0, 0] =
      (forwardLossParts covAttnModules true (fun x => x) 0 [9, 3, 3] [9, 1, 1]
        [0, 1] 0 () [0, 0]).1 +
        1 * (forwardLossParts covAttnModules true (fun x => x) 0 [9, 3, 3] [9, 1, 1]
          [0, 1] 0 () [0, 0]).2 := rfl
  constructor
  · rw [hdT, hdF]
    norm_num
  · rw [hF, htot, hT, hcov]
    norm_num

/-! ## Claims C5 and C10: the Output Decoder -/

theorem truncAtEnd_eq_takeWhile (e : Nat) (l : List Nat) :
    truncAtEnd e l = l.takeWhile (fun x => decide (x ≠ e)) := by
  induction l with
  | nil => simp [truncAtEnd]
  | cons x xs ih =>
      rw [List.takeWhile_cons]
      by_cases hx : x = e
      · subst hx
        rw [truncAtEnd, if_pos (List.mem_cons_self x xs), List.indexOf_cons_self,
          List.take_zero, if_neg (by simp)]
      · have hd : (decide (x ≠ e)) = true := by simp [hx]
        rw [if_pos hd]
        by_cases hmem : e ∈ xs
        · rw [truncAtEnd, if_pos (List.mem_cons_of_mem x hmem),
            List.indexOf_cons_ne _ hx, Nat.succ_eq_add_one, List.take_succ_cons,
            ← ih, truncAtEnd, if_pos hmem]
        · have hnotmem : e ∉ x :: xs := by
            intro hc
            rcases List.mem_cons.mp hc with h | h
            · exact hx h.symm
            · exact hmem h
          rw [truncAtEnd, if_neg hnotmem, ← ih, truncAtEnd, if_neg hmem]

theorem mapTokens_eq_map {α β : Type} (f : α → Option β) (d : β) :
    ∀ l : List α, (∀ x ∈ l, (f x).isSome = true) →
      mapTokens f l = some (l.map (fun x => (f x).getD d))
  | [], _ => rfl
  | x :: xs, h => by
      obtain ⟨w, hw⟩ := Option.isSome_iff_exists.mp (h x (List.mem_cons_self _ _))
      simp only [mapTokens, List.map_cons]
      rw [mapTokens_eq_map f d xs (fun y hy => h y (List.mem_cons_of_mem _ hy)), hw]
      rfl

theorem foldl_dedup_eq_firstOcc {α : Type} [DecidableEq α] :
    ∀ (l acc : List α),
      l.foldl (fun a x => if x ∈ a then a else a ++ [x]) acc =
        acc ++ firstOcc (l.filter (fun x => decide (x ∉ acc)))
  | [], acc => by simp [firstOcc]
  | x :: xs, acc => by
      rw [List.foldl_cons, List.filter_cons]
      by_cases hx : x ∈ acc
      · have hd : (decide (x ∉ acc)) = false := by simp [hx]
        rw [if_pos hx, hd]
        simp only [Bool.false_eq_true, if_false]
        exact foldl_dedup_eq_firstOcc xs acc
      · have hd : (decide (x ∉ acc)) = true := by simp [hx]
        rw [if_neg hx, if_pos hd, firstOcc, foldl_dedup_eq_firstOcc xs (acc ++ [x]),
          List.filter_filter, List.append_assoc, List.singleton_append]
        congr 2
        congr 1
        apply List.filter_congr
        intro y _
        have hiff : (y ∉ acc ++ [x]) ↔ (y ≠ x ∧ y ∉ acc) := by
          simp only [List.mem_append, List.mem_singleton]
          constructor
          · intro hy
            push_neg at hy
            exact ⟨hy.2, hy.1⟩
          · intro hy
            push_neg
            exact ⟨hy.2, hy.1⟩
        rw [decide_eq_decide.mpr hiff, Bool.decide_and]

theorem buildUnkTokens_eq_foldl_dedup (unk : Nat) :
    ∀ (ps : List (Nat × String)) (acc : List String),
      ps.foldl
        (fun acc p => if p.1 = unk then (if p.2 ∈ acc then acc else acc ++ [p.2]) else acc)
        acc =
      (ps.filterMap (fun p => if p.1 = unk then some p.2 else none)).foldl
        (fun a x => if x ∈ a then a else a ++ [x]) acc
  | [], _ => rfl
  | p :: ps, acc => by
      by_cases hp : p.1 = unk
      · simp only [List.foldl_cons, List.filterMap_cons, hp, if_true, eq_self_iff_true]
        exact buildUnkTokens_eq_foldl_dedup unk ps _
      · simp only [List.foldl_cons, List.filterMap_cons, if_neg hp]
        exact buildUnkTokens_eq_foldl_dedup unk ps acc

theorem mem_firstOcc {α : Type} [DecidableEq α] (a : α) :
    ∀ l : List α, a ∈ firstOcc l ↔ a ∈ l
  | [] => by rw [firstOcc]
  | x :: xs => by
      rw [firstOcc]
      constructor
      · intro h
        rcases List.mem_cons.mp h with h | h
        · exact h ▸ List.mem_cons_self _ _
        · have h2 := (mem_firstOcc a (xs.filter (fun y => decide (y ≠ x)))).mp h
          exact List.mem_cons_of_mem _ (List.mem_filter.mp h2).1
      · intro h
        rcases List.mem_cons.mp h with h | h
        · exact h ▸ List.mem_cons_self _ _
        · by_cases hax : a = x
          · exact hax ▸ List.mem_cons_self _ _
          · refine List.mem_cons_of_mem _ ?_
            refine (mem_firstOcc a _).mpr ?_
            exact List.mem_filter.mpr ⟨h, by simp [hax]⟩
termination_by l => l.length
decreasing_by
  all_goals
    simp only [List.length_cons]
    exact Nat.lt_succ_of_le (List.length_filter_le _ _)

theorem nodup_firstOcc {α : Type} [DecidableEq α] :
    ∀ l : List α, (firstOcc l).Nodup
  | [] => by rw [firstOcc]; exact List.nodup_nil
  | x :: xs => by
      rw [firstOcc]
      refine List.Nodup.cons ?_ (nodup_firstOcc _)
      intro hmem
      have h2 := (mem_firstOcc x _).mp hmem
      have h3 := List.mem_filter.mp h2
      simp at h3
termination_by l => l.length
decreasing_by
  all_goals
    simp only [List.length_cons]
    exact Nat.lt_succ_of_le (List.length_filter_le _ _)

/-- C10: the out-of-vocabulary reconstruction list built inside `decode`
    deduplicates by string equality of the literal source token: it equals
    the first-occurrence deduplication of the literal tokens at
    source_to_target positions marked unknown, and it contains no
    duplicates, so two source positions holding the same literal token
    share one slot and later tokens' ranks shift accordingly. -/
theorem unk_tokens_first_occurrence_dedup (unk : Nat) (s2t : List Nat)
    (ws : List String) :
    buildUnkTokens unk s2t ws = firstOcc (unkSourceTokens unk s2t ws) ∧
      (buildUnkTokens unk s2t ws).Nodup := by
  have h1 : buildUnkTokens unk s2t ws =
      (unkSourceTokens unk s2t ws).foldl (fun a x => if x ∈ a then a else a ++ [x]) [] :=
    buildUnkTokens_eq_foldl_dedup unk (s2t.zip ws) []
  have h2 := foldl_dedup_eq_firstOcc (unkSourceTokens unk s2t ws) []
  have h3 : (unkSourceTokens unk s2t ws).filter
      (fun x => decide (x ∉ ([] : List String))) = unkSourceTokens unk s2t ws := by
    have hcongr : ∀ x ∈ unkSourceTokens unk s2t ws,
        (decide (x ∉ ([] : List String))) = (fun _ => true) x := by
      intro x _
      simp
    rw [List.filter_congr hcongr, List.filter_true]
  rw [h1, h2, h3, List.nil_append]
  exact ⟨rfl, nodup_firstOcc _⟩

/-- C5: for every example, `decode` truncates the predicted index row at
    the first end-of-sequence index (taking the whole row when none
    occurs), uses only the top-ranked hypothesis of a beam-shaped
    prediction, and maps each index below the fixed target vocabulary size
    through the vocabulary and each index at or above it to the token at
    rank `index - target_vocab_size` of the example's first-occurrence
    out-of-vocabulary token list. -/
theorem decode_truncates_selects_maps (endIdx V unk : Nat)
    (vocabTok : Nat → String) (s2t : List Nat) (srcWords : List String)
    (hyp : List Nat) (rest : List (List Nat))
    (hin : ∀ x ∈ hyp.takeWhile (fun x => decide (x ≠ endIdx)),
      x < V ∨ x - V < (buildUnkTokens unk s2t srcWords).length) :
    decodeTop endIdx V vocabTok unk s2t srcWords (hyp :: rest) =
      some ((hyp.takeWhile (fun x => decide (x ≠ endIdx))).map
        (fun x => if x < V then vocabTok x
          else (buildUnkTokens unk s2t srcWords).getD (x - V) "")) := by
  unfold decodeTop decodeIndices
  rw [List.headD_cons, truncAtEnd_eq_takeWhile]
  have hsome : ∀ x ∈ hyp.takeWhile (fun x => decide (x ≠ endIdx)),
      ((mapIndex V vocabTok (buildUnkTokens unk s2t srcWords)) x).isSome = true := by
    intro x hx
    rcases hin x hx with h | h
    · simp [mapIndex, h]
    · by_cases hv : x < V
      · simp [mapIndex, hv]
      · simp only [mapIndex, if_neg hv]
        simp [List.getElem?_eq_getElem h]
  rw [mapTokens_eq_map _ "" _ hsome]
  congr 1
  apply List.map_congr_left
  intro x hx
  rcases hin x hx with h | h
  · simp [mapIndex, h]
  · by_cases hv : x < V
    · simp [mapIndex, hv]
    · simp only [mapIndex, if_neg hv, List.getD_eq_getElem?_getD]

/-- Witness for C5: vocabulary size 3, end index 7, source-to-target row
    `[1, 0, 1]` over literal source tokens `["a", "b", "a"]` (so the
    out-of-vocabulary list is `["a"]`), predicted top hypothesis
    `[0, 3, 7]` with a second ranked hypothesis that must be ignored. -/
theorem decode_truncates_selects_maps_witness :
    decodeTop 7 3 (fun _ => "v") 1 [1, 0, 1] ["a", "b", "a"] [[0, 3, 7], [7, 7, 7]] =
      some ["v", "a"] := by
  rw [decode_truncates_selects_maps 7 3 1 (fun _ => "v") [1, 0, 1] ["a", "b", "a"]
    [0, 3, 7] [[7, 7, 7]] (by decide)]
  decide

/-! ## Claim C6: the decoding step cap -/

/-- C6: decoding never runs more than `maxSteps` steps — the predicted
    sequence has at most `maxSteps` tokens — and when the step function
    never produces the end-of-sequence index, the sequence has exactly
    `maxSteps` tokens: no cancellation path other than the step cap and the
    end index exists in the decoding loop. -/
theorem decoding_step_cap {S : Type} (step : S → Nat × S) (eosIdx : Nat) :
    ∀ (maxSteps : Nat) (s : S),
      (greedySearch step eosIdx maxSteps s).length ≤ maxSteps ∧
      ((∀ s', (step s').1 ≠ eosIdx) →
        (greedySearch step eosIdx maxSteps s).length = maxSteps)
  | 0, s => ⟨Nat.le_refl 0, fun _ => rfl⟩
  | n + 1, s => by
      have ih := decoding_step_cap step eosIdx n (step s).2
      simp only [greedySearch]
      by_cases h : (step s).1 = eosIdx
      · rw [if_pos h]
        constructor
        · simp only [List.length_cons, List.length_nil]
          omega
        · intro hno
          exact absurd h (hno s)
      · rw [if_neg h]
        constructor
        · simp only [List.length_cons]
          omega
        · intro hno
          simp only [List.length_cons, ih.2 hno]

/-- Witness for C6: a step function that always emits token 0 (never the
    end index 1), with `max_decoding_steps = 5`: exactly 5 tokens. -/
theorem decoding_step_cap_witness :
    (greedySearch (fun s : Nat => (0, s)) 1 5 0).length ≤ 5 ∧
      (greedySearch (fun s : Nat => (0, s)) 1 5 0).length = 5 := by
  have h := decoding_step_cap (fun s : Nat => (0, s)) 1 5 0
  exact ⟨h.1, h.2 (fun _ => by simp)⟩

/-! ## Claim C8: the evaluation empty-string guard -/

/-- C8 (amended): in the single-reference mode, every appended hypothesis
    and reference string is either the placeholder `"empty"` or has
    stripped length at least 2; in particular a hypothesis or reference
    whose stripped form has length at most 1 (empty or malformed) is
    replaced by the placeholder.  (The multiple-reference mode performs no
    such substitution — see the counterexample.) -/
theorem empty_substitution_single_ref (postHyp target : String) :
    ((processPairSingle postHyp target).1 = "empty" ∨
      2 ≤ (stripStr (processPairSingle postHyp target).1).length) ∧
    ((stripStr postHyp).length ≤ 1 → (processPairSingle postHyp target).1 = "empty") ∧
    ((processPairSingle postHyp target).2 = ["empty"] ∨
      ∀ r ∈ (processPairSingle postHyp target).2, 2 ≤ (stripStr r).length) ∧
    ((stripStr target).length ≤ 1 → (processPairSingle postHyp target).2 = ["empty"]) := by
  unfold processPairSingle substEmpty
  dsimp only
  refine ⟨?_, ?_, ?_, ?_⟩
  · by_cases h1 : (stripStr postHyp).length ≤ 1
    · rw [if_pos h1]
      exact Or.inl rfl
    · rw [if_neg h1]
      exact Or.inr (by omega)
  · intro h1
    rw [if_pos h1]
  · by_cases h2 : (stripStr target).length ≤ 1
    · rw [if_pos h2]
      exact Or.inl rfl
    · rw [if_neg h2]
      refine Or.inr ?_
      intro r hr
      rw [List.mem_singleton] at hr
      subst hr
      omega
  · intro h2
    rw [if_pos h2]

/-- C8 counterexample: in the multiple-reference mode an empty reference
    (an empty list of reference sentences) is appended as the empty string,
    not as the placeholder: the substitution does not happen on this
    path. -/
theorem empty_substitution_multi_ref_cex :
    (processPairMulti ["x"] []).2 = [""] ∧ ("" : String) ≠ "empty" := by
  constructor
  · rfl
  · decide

/-- Witness for C8 (amended): an empty hypothesis and a one-character
    reference are both replaced by the placeholder. -/
theorem empty_substitution_single_ref_witness :
    (processPairSingle "" "x").1 = "empty" ∧
      (processPairSingle "" "x").2 = ["empty"] := by
  have h := empty_substitution_single_ref "" "x"
  exact ⟨h.2.1 (by decide), h.2.2.2 (by decide)⟩

/-! ## Claim C9: determinism of the Extended-Vocabulary Builder -/

/-- C9: `_prepare` reads nothing but its argument tensors and writes only
    freshly allocated tensors (no model state, no randomness, no in-place
    mutation of its inputs), so its embedding is a pure function and two
    runs on the same batch agree on the extra-slot buffer (identical shape
    and contents), on the extended source indices, and on the extended
    target indices. -/
theorem prepare_deterministic (V unk : Nat)
    (batch : List ((List Nat × List Nat) × Option (List Nat × List Nat))) :
    (prepare V unk batch).1 = (prepare V unk batch).1 ∧
    (prepare V unk batch).2.1 = (prepare V unk batch).2.1 ∧
    (prepare V unk batch).2.2 = (prepare V unk batch).2.2 :=
  ⟨rfl, rfl, rfl⟩

end Summarus
